import Mathlib

/-!
Verification of the data-analysis-pipeline cleaning service (data-clean/app.py).

The development shallowly embeds the functions of the cleaning service that the
specification talks about: work discovery over file names, the missing-value
imputation policy, the technical-indicator chain (SMA, EWM, MACD, RSI), the
quote analyzer, the data quality score, and the batch orchestration with its
error handling.  Machine floats are modelled by exact rationals; the special
IEEE values NaN and the infinities, which the RSI computation can produce, are
modelled explicitly by the type PVal.  Fallible code is modelled with Except.
-/

/- ---------------------------------------------------------------- -/
/- Part A: file-name manipulation and work discovery
   (find_unprocessed_files, app.py lines 100-128).                  -/
/- ---------------------------------------------------------------- -/

/-- Whether the first character list is an initial segment of the second. -/
def leadsWith : List Char → List Char → Bool
  | [], _ => true
  | _ :: _, [] => false
  | p :: ps, c :: cs => p = c && leadsWith ps cs

/-- Fuelled worker for pyReplace.  One unit of fuel is spent per step; each
step consumes at least one input character, so fuel equal to the input length
suffices. -/
def pyReplaceFuel (pat rep : List Char) : ℕ → List Char → List Char
  | _, [] => []
  | 0, s => s
  | fuel + 1, c :: rest =>
    if pat ≠ [] ∧ leadsWith pat (c :: rest) = true then
      rep ++ pyReplaceFuel pat rep fuel (List.drop (pat.length - 1) rest)
    else
      c :: pyReplaceFuel pat rep fuel rest

/-- Python str.replace: replace every non-overlapping occurrence of pat by rep,
scanning left to right.  (For the empty pattern, which the service never uses,
the string is returned unchanged.) -/
def pyReplace (s pat rep : String) : String :=
  ⟨pyReplaceFuel pat.data rep.data s.data.length s.data⟩

/-- Split a character list at every occurrence of the separator. -/
def splitChar (sep : Char) : List Char → List (List Char)
  | [] => [[]]
  | c :: rest =>
    let r := splitChar sep rest
    if c = sep then [] :: r
    else
      match r with
      | [] => [[c]]
      | h :: t => (c :: h) :: t

/-- os.path.basename for slash-separated paths: the part after the last slash. -/
def basename (p : String) : String :=
  ⟨(splitChar '/' p.data).getLastD []⟩

/-- find_unprocessed_files (app.py lines 100-128).  The directory scan is
abstracted by the three glob result lists (stock_quotes_*.csv files,
stock_historical_*.csv files, processed_*.csv files); the function body is the
line-by-line translation of the name manipulation and filtering. -/
def find_unprocessed_files (quote_files historical_files processed_files : List String) :
    List String :=
  let processed_names := processed_files.map
    (fun pf => pyReplace (pyReplace (basename pf) "processed_" "") ".csv" "")
  let unQ := quote_files.filter
    (fun f => !(processed_names.contains
      (pyReplace (pyReplace (basename f) "stock_quotes_" "") ".csv" "")))
  let unH := historical_files.filter
    (fun f => !(processed_names.contains
      (pyReplace (pyReplace (basename f) "stock_historical_" "") ".csv" "")))
  unQ ++ unH

/- ---------------------------------------------------------------- -/
/- Part B: the indicator engine
   (calculate_technical_indicators, app.py lines 130-171).          -/
/- ---------------------------------------------------------------- -/

/-- pandas Series.rolling(window=w).mean(): at index i the mean of the trailing
w values; null (None) while fewer than w observations are available, since the
default min_periods equals the window size. -/
def rollingMean (w : ℕ) (xs : List ℚ) : List (Option ℚ) :=
  (List.range xs.length).map (fun i =>
    if i + 1 < w then none
    else some ((((List.range w).map (fun j => xs.getD (i - j) 0)).sum) / w))

/-- Worker for the pandas exponentially weighted mean with adjust=True: carries
the running weighted numerator and the running weight sum, both decayed by
beta = 1 - alpha at each step. -/
def ewmGo (beta : ℚ) (num den : ℚ) : List ℚ → List ℚ
  | [] => []
  | x :: xs =>
    let n := beta * num + x
    let d := beta * den + 1
    n / d :: ewmGo beta n d xs

/-- pandas Series.ewm(span=s).mean() with the default adjust=True: the weighted
mean of the full history with weights (1-alpha)^k, alpha = 2/(span+1); defined
from the very first observation. -/
def ewm (span : ℕ) (xs : List ℚ) : List ℚ :=
  ewmGo (1 - 2 / ((span : ℚ) + 1)) 0 0 xs

/-- Model of an IEEE-754 double as used by the RSI computation: an exact
rational, a signed infinity, or NaN.  (Rounding is not modelled; signed zero is
collapsed to 0.) -/
inductive PVal where
  | nan : PVal
  | pinf : PVal
  | minf : PVal
  | num : ℚ → PVal
deriving DecidableEq

/-- IEEE negation. -/
def pneg : PVal → PVal
  | .nan => .nan
  | .pinf => .minf
  | .minf => .pinf
  | .num q => .num (-q)

/-- IEEE addition. -/
def padd : PVal → PVal → PVal
  | .nan, _ => .nan
  | _, .nan => .nan
  | .pinf, .minf => .nan
  | .minf, .pinf => .nan
  | .pinf, _ => .pinf
  | _, .pinf => .pinf
  | .minf, _ => .minf
  | _, .minf => .minf
  | .num a, .num b => .num (a + b)

/-- IEEE subtraction. -/
def psub (a b : PVal) : PVal := padd a (pneg b)

/-- IEEE division, as numpy performs it on float columns: finite/0 is a signed
infinity, 0/0 and inf/inf are NaN, finite/inf is 0. -/
def pdiv : PVal → PVal → PVal
  | .nan, _ => .nan
  | _, .nan => .nan
  | .pinf, .pinf => .nan
  | .pinf, .minf => .nan
  | .minf, .pinf => .nan
  | .minf, .minf => .nan
  | .pinf, .num b => if b < 0 then .minf else .pinf
  | .minf, .num b => if b < 0 then .pinf else .minf
  | .num _, .pinf => .num 0
  | .num _, .minf => .num 0
  | .num a, .num b =>
    if b = 0 then (if a = 0 then .nan else if 0 < a then .pinf else .minf)
    else .num (a / b)

/-- Series.where(self > 0, 0): keep strictly positive entries, replace every
other entry (including NaN, for which the comparison is false) by 0. -/
def keepPos : PVal → PVal
  | .num q => if 0 < q then .num q else .num 0
  | .pinf => .pinf
  | .nan => .num 0
  | .minf => .num 0

/-- Series.where(self < 0, 0): keep strictly negative entries, replace every
other entry (including NaN) by 0. -/
def keepNeg : PVal → PVal
  | .num q => if q < 0 then .num q else .num 0
  | .minf => .minf
  | .nan => .num 0
  | .pinf => .num 0

/-- Extract the rationals from a float column fragment; none if any entry is
not a finite number. -/
def toQList : List PVal → Option (List ℚ)
  | [] => some []
  | .num q :: rest => (toQList rest).map (fun qs => q :: qs)
  | _ => none

/-- Series.diff() at index i: NaN at index 0, the difference of consecutive
closes afterwards. -/
def deltaF (closes : List ℚ) (i : ℕ) : PVal :=
  if i = 0 then .nan else .num (closes.getD i 0 - closes.getD (i - 1) 0)

/-- The gains series delta.where(delta > 0, 0) (app.py line 154). -/
def gainIn (closes : List ℚ) (i : ℕ) : PVal := keepPos (deltaF closes i)

/-- The losses series -delta.where(delta < 0, 0) (app.py line 155). -/
def lossIn (closes : List ℚ) (i : ℕ) : PVal := pneg (keepNeg (deltaF closes i))

/-- rolling(window=w).mean() over a float series given as an indexed function:
NaN while fewer than w observations exist, NaN if the window holds any
non-finite value (a NaN in the window leaves fewer than min_periods = w valid
observations), otherwise the exact mean of the window. -/
def rollingF (w : ℕ) (f : ℕ → PVal) (i : ℕ) : PVal :=
  if i + 1 < w then .nan
  else
    match toQList ((List.range w).map (fun j => f (i - j))) with
    | some qs => .num (qs.sum / w)
    | none => .nan

/-- Trailing-14 average gain (app.py line 154). -/
def gainF (closes : List ℚ) (i : ℕ) : PVal := rollingF 14 (gainIn closes) i

/-- Trailing-14 average loss (app.py line 155). -/
def lossF (closes : List ℚ) (i : ℕ) : PVal := rollingF 14 (lossIn closes) i

/-- rsi = 100 - 100/(1 + gain/loss) at index i (app.py lines 156-157),
with the IEEE semantics of the division by a zero average loss. -/
def rsiF (closes : List ℚ) (i : ℕ) : PVal :=
  psub (.num 100) (pdiv (.num 100) (padd (.num 1) (pdiv (gainF closes i) (lossF closes i))))

/-- The indicator columns appended by calculate_technical_indicators that the
specification's claims are about.  The close column is the date-sorted close
price series of the input file. -/
structure TIResult where
  sma_5 : List (Option ℚ)
  sma_20 : List (Option ℚ)
  ema_12 : List ℚ
  ema_26 : List ℚ
  macd : List ℚ
  macd_signal : List ℚ
  macd_histogram : List ℚ
  rsi : List PVal

/-- calculate_technical_indicators (app.py lines 130-171), restricted to the
columns the claims mention.  Bollinger bands, daily returns and volatility are
independent downstream columns not referenced by any claim. -/
def calculate_technical_indicators (closes : List ℚ) : TIResult where
  sma_5 := rollingMean 5 closes
  sma_20 := rollingMean 20 closes
  ema_12 := ewm 12 closes
  ema_26 := ewm 26 closes
  macd := List.zipWith (fun a b => a - b) (ewm 12 closes) (ewm 26 closes)
  macd_signal := ewm 9 (List.zipWith (fun a b => a - b) (ewm 12 closes) (ewm 26 closes))
  macd_histogram :=
    List.zipWith (fun a b => a - b)
      (List.zipWith (fun a b => a - b) (ewm 12 closes) (ewm 26 closes))
      (ewm 9 (List.zipWith (fun a b => a - b) (ewm 12 closes) (ewm 26 closes)))
  rsi := (List.range closes.length).map (rsiF closes)

/- ---------------------------------------------------------------- -/
/- Part C: the record normalizer's imputation policy
   (process_stock_data, app.py lines 199-220).                      -/
/- ---------------------------------------------------------------- -/

/-- Worker for pandas fillna(method=ffill): carry the last valid value. -/
def ffillGo (last : Option ℚ) : List (Option ℚ) → List (Option ℚ)
  | [] => []
  | v :: rest =>
    match v with
    | some x => some x :: ffillGo (some x) rest
    | none => last :: ffillGo last rest

/-- pandas Series.fillna(method=ffill). -/
def ffill (c : List (Option ℚ)) : List (Option ℚ) := ffillGo none c

/-- pandas Series.fillna(method=bfill): forward fill on the reversed column. -/
def bfill (c : List (Option ℚ)) : List (Option ℚ) := (ffillGo none c.reverse).reverse

/-- Insert a value into a sorted list of rationals. -/
def insertSorted (x : ℚ) : List ℚ → List ℚ
  | [] => [x]
  | y :: ys => if x ≤ y then x :: y :: ys else y :: insertSorted x ys

/-- Insertion sort; on rationals this yields the unique sorted arrangement, as
required to read off the median. -/
def sortList : List ℚ → List ℚ
  | [] => []
  | x :: xs => insertSorted x (sortList xs)

/-- The non-null entries of a column. -/
def nonNulls (c : List (Option ℚ)) : List ℚ := c.filterMap id

/-- pandas Series.median(): NaN (none) on an empty set of valid values, the
middle sorted value for an odd count, the mean of the two middle sorted values
for an even count. -/
def median (l : List ℚ) : Option ℚ :=
  if (sortList l).length = 0 then none
  else if (sortList l).length % 2 = 1 then (sortList l)[(sortList l).length / 2]?
  else
    match (sortList l)[(sortList l).length / 2 - 1]?, (sortList l)[(sortList l).length / 2]? with
    | some a, some b => some ((a + b) / 2)
    | _, _ => none

/-- pandas Series.fillna(value): replace every null by the value; filling with
NaN (none) leaves nulls in place. -/
def fillna (c : List (Option ℚ)) (m : Option ℚ) : List (Option ℚ) :=
  c.map (fun v => match v with | some x => some x | none => m)

/-- df[col].fillna(df[col].median()) — the median is computed over the non-null
values of the column before imputation. -/
def fillWithMedian (c : List (Option ℚ)) : List (Option ℚ) :=
  fillna c (median (nonNulls c))

/-- The price-like columns enumerated at app.py line 205. -/
def price_columns : List String :=
  ["current_price", "high_price", "low_price", "open_price", "close", "high", "low", "open"]

/-- The imputation applied to one numeric column (app.py lines 204-213):
forward fill then backward fill for price-like columns, the column median for
volume, and likewise the column median for every other numeric column. -/
def impute_numeric_column (name : String) (c : List (Option ℚ)) : List (Option ℚ) :=
  if name ∈ price_columns then bfill (ffill c)
  else if name = "volume" then fillWithMedian c
  else fillWithMedian c

/- ---------------------------------------------------------------- -/
/- Part D: the quote analyzer
   (process_stock_data, app.py lines 231-250).                      -/
/- ---------------------------------------------------------------- -/

/-- The sentiment label assigned from the calculated change percentage
(app.py lines 238-245). -/
def market_sentiment (change_pct : ℚ) : String :=
  if change_pct > 2 then "Strong Bullish"
  else if change_pct > 0 then "Bullish"
  else if change_pct > -2 then "Bearish"
  else "Strong Bearish"

/-- One iteration of the quote-analysis loop (app.py lines 232-245): when both
current_price and previous_close are non-null the row receives
change_percent_calc and sentiment, otherwise neither column is set. -/
def analyze_quote_row (current_price previous_close : Option ℚ) : Option (ℚ × String) :=
  match current_price, previous_close with
  | some cp, some pc =>
    some ((cp - pc) / pc * 100, market_sentiment ((cp - pc) / pc * 100))
  | _, _ => none

/- ---------------------------------------------------------------- -/
/- Part E: the quality scorer
   (process_stock_data, app.py lines 252-256).                      -/
/- ---------------------------------------------------------------- -/

/-- Python round-half-to-even to an integer. -/
def rhe (x : ℚ) : ℤ :=
  if x - ⌊x⌋ < 1 / 2 then ⌊x⌋
  else if 1 / 2 < x - ⌊x⌋ then ⌊x⌋ + 1
  else if 2 ∣ ⌊x⌋ then ⌊x⌋ else ⌊x⌋ + 1

/-- Python round(x, 2). -/
def py_round2 (x : ℚ) : ℚ := (rhe (x * 100) : ℚ) / 100

/-- data_quality_score (app.py lines 254-256): completeness of the final
dataset, as a percentage rounded to two decimals. -/
def data_quality_score (nulls rows cols : ℕ) : ℚ :=
  py_round2 ((1 - (nulls : ℚ) / ((rows : ℚ) * (cols : ℚ))) * 100)

/- ---------------------------------------------------------------- -/
/- Part F: orchestration and status reporting
   (process_stock_data lines 276-278, process_all_files lines
   280-357, update_status lines 78-84).                             -/
/- ---------------------------------------------------------------- -/

/-- The per-file processing statistics fields used by the batch summary. -/
structure ProcStats where
  file_type : String
  quality_score : ℚ
deriving DecidableEq

/-- The value returned by process_stock_data for one file: the stats record on
success, an error record holding the exception message otherwise. -/
inductive FileOutcome where
  | ok : ProcStats → FileOutcome
  | err : String → FileOutcome
deriving DecidableEq

/-- The try/except wrapper of process_stock_data (app.py lines 173-278): a
raised exception is caught at file granularity and converted into
(False, a stats record holding only the error message). -/
def process_stock_data (r : Except String ProcStats) : Bool × FileOutcome :=
  match r with
  | .ok s => (true, .ok s)
  | .error e => (false, .err e)

/-- The batch summary built when at least one file succeeded
(app.py lines 319-326). -/
structure BatchSummary where
  total_files_processed : ℕ
  files : List String
  average_quality_score : ℚ
deriving DecidableEq

/-- The externally observable outcome of one orchestration cycle: the final
status written to the status store, the optional batch summary, and whether the
data_processed event was published. -/
structure BatchOutcome where
  status : String
  summary : Option BatchSummary
  eventPublished : Bool
deriving DecidableEq

/-- The files that process_stock_data reports as successful, with their
stats. -/
def successesOf (results : List (String × Except String ProcStats)) :
    List (String × ProcStats) :=
  results.filterMap (fun p =>
    match process_stock_data p.2 with
    | (true, .ok s) => some (p.1, s)
    | _ => none)

/-- process_all_files (app.py lines 280-357) over the discovered work items,
abstracting each file's processing by its Except result: no work yields idle;
files are processed independently, failures are logged and skipped; at least
one success yields the summary, the completed status and the event-bus
notification; zero successes yield the error status, and the function returns
normally in every case. -/
def process_all_files (results : List (String × Except String ProcStats)) : BatchOutcome :=
  if results.isEmpty then ⟨"idle", none, false⟩
  else
    let processed := successesOf results
    if processed.isEmpty then ⟨"error", none, false⟩
    else
      ⟨"completed",
       some ⟨processed.length, processed.map Prod.fst,
             py_round2 ((processed.map (fun q => q.2.quality_score)).sum / processed.length)⟩,
       true⟩

/-- The redis hset call inside update_status: fails iff the status store is
unreachable. -/
def hset_status (redisOk : Bool) : Except String Unit :=
  if redisOk then .ok () else .error "RedisError"

/-- update_status (app.py lines 78-84): the hset call is wrapped in
try/except redis.RedisError, so the function returns normally either way; the
second component is the list of writes that actually reached the store. -/
def update_status (redisOk : Bool) (st : String) : Except String Unit × List String :=
  match hset_status redisOk with
  | .ok _ => (.ok (), [st])
  | .error _ => (.ok (), [])

/-- One orchestration cycle including its status writes: were update_status to
propagate a store failure, the cycle would abort with that error; the returned
pair is the batch outcome together with the status values that reached the
store. -/
def process_all_files_run (redisOk : Bool)
    (results : List (String × Except String ProcStats)) :
    Except String (BatchOutcome × List String) :=
  match update_status redisOk "processing" with
  | (.error e, _) => .error e
  | (.ok _, w1) =>
    let out := process_all_files results
    match update_status redisOk out.status with
    | (.error e, _) => .error e
    | (.ok _, w2) => .ok (out, w1 ++ w2)

/- ---------------------------------------------------------------- -/
/- Concrete inputs used by witnesses.                               -/
/- ---------------------------------------------------------------- -/

/-- A strictly increasing 15-row close series. -/
def closes15 : List ℚ := [1, 2, 3, 4, 5, 6, 7, 8, 9, 10, 11, 12, 13, 14, 15]

/-- A 21-row close series. -/
def closes21 : List ℚ :=
  [1, 2, 3, 4, 5, 6, 7, 8, 9, 10, 11, 12, 13, 14, 15, 16, 17, 18, 19, 20, 21]

/-- A two-file batch in which the first file raises and the second succeeds. -/
def batch2 : List (String × Except String ProcStats) :=
  [("stock_quotes_T1.csv", .error "boom"),
   ("stock_quotes_T2.csv", .ok ⟨"quotes", 100⟩)]

/-- A PVal that is a non-negative finite number; the shape of every entry of
the gains and losses series. -/
def IsNN (v : PVal) : Prop := ∃ q, v = PVal.num q ∧ 0 ≤ q

/- ---------------------------------------------------------------- -/
/- Theorems.                                                        -/
/- ---------------------------------------------------------------- -/

/-- C1: refuted, evaluating the code at the failing input.  With the produced
output processed_quotes_T1.csv present, Work Discovery still returns BOTH
stock_quotes_T1.csv and stock_quotes_T2.csv: the output token quotes_T1
(processed_ stripped) never equals the input token T1 (stock_quotes_ stripped),
so the name-based skip never fires and the T1 work item is processed again,
contrary to the claimed at-most-once invariant. -/
theorem find_unprocessed_files_reprocesses_processed_input :
    find_unprocessed_files
      ["/shared/data/stock_quotes_T1.csv", "/shared/data/stock_quotes_T2.csv"]
      []
      ["/shared/data/processed_quotes_T1.csv"]
    = ["/shared/data/stock_quotes_T1.csv", "/shared/data/stock_quotes_T2.csv"] := by decide


theorem ewmGo_length (beta : ℚ) : ∀ (xs : List ℚ) (num den : ℚ),
    (ewmGo beta num den xs).length = xs.length
  | [], _, _ => rfl
  | x :: xs, num, den => by
    simp [ewmGo, ewmGo_length beta xs]

theorem ewm_length (span : ℕ) (xs : List ℚ) : (ewm span xs).length = xs.length :=
  ewmGo_length _ xs 0 0

theorem zipWith_sub_getElem (l₁ l₂ : List ℚ) (i : ℕ)
    (h₁ : i < l₁.length) (h₂ : i < l₂.length) :
    (List.zipWith (fun a b => a - b) l₁ l₂)[i]? = some (l₁.getD i 0 - l₂.getD i 0) := by
  induction l₁ generalizing l₂ i with
  | nil => simp at h₁
  | cons x xs ih =>
    cases l₂ with
    | nil => simp at h₂
    | cons y ys =>
      cases i with
      | zero => simp [List.getD]
      | succ n =>
        simp only [List.length_cons, Nat.succ_lt_succ_iff] at h₁ h₂
        simpa [List.getD_cons_succ] using ih ys n h₁ h₂

/-- C2: for every input series processed by the Indicator Engine, at every row
the macd column equals ema_12 minus ema_26, and the macd_histogram column
equals macd minus macd_signal, exactly. -/
theorem macd_identities (closes : List ℚ) (i : ℕ) (hi : i < closes.length) :
    (calculate_technical_indicators closes).macd[i]? =
      some ((calculate_technical_indicators closes).ema_12.getD i 0 -
            (calculate_technical_indicators closes).ema_26.getD i 0) ∧
    (calculate_technical_indicators closes).macd_histogram[i]? =
      some ((calculate_technical_indicators closes).macd.getD i 0 -
            (calculate_technical_indicators closes).macd_signal.getD i 0) := by
  have h12 : (ewm 12 closes).length = closes.length := ewm_length _ _
  have h26 : (ewm 26 closes).length = closes.length := ewm_length _ _
  have hm : (List.zipWith (fun a b => a - b) (ewm 12 closes) (ewm 26 closes)).length
      = closes.length := by
    simp [List.length_zipWith, h12, h26]
  have hs : (ewm 9 (List.zipWith (fun a b => a - b) (ewm 12 closes) (ewm 26 closes))).length
      = closes.length := by
    simp [ewm_length, hm]
  constructor
  · exact zipWith_sub_getElem _ _ i (by omega) (by omega)
  · exact zipWith_sub_getElem _ _ i (by omega) (by omega)

/-- Witness for C2 at the concrete series [1, 2], row 0. -/
theorem macd_identities_witness :
    (calculate_technical_indicators [1, 2]).macd[0]? =
      some ((calculate_technical_indicators [1, 2]).ema_12.getD 0 0 -
            (calculate_technical_indicators [1, 2]).ema_26.getD 0 0) :=
  (macd_identities [1, 2] 0 (by decide)).1

theorem list_range_map_sum (f : ℕ → ℚ) (n : ℕ) :
    ((List.range n).map f).sum = ∑ j ∈ Finset.range n, f j := by
  induction n with
  | zero => simp
  | succ n ih => simp [List.range_succ, Finset.sum_range_succ, ih]

theorem rollingMean_getElem (w : ℕ) (xs : List ℚ) (i : ℕ) (hi : i < xs.length) :
    (rollingMean w xs)[i]? =
      some (if i + 1 < w then none
            else some ((∑ j ∈ Finset.range w, xs.getD (i - j) 0) / w)) := by
  simp [rollingMean, List.getElem?_map, List.getElem?_range, hi, list_range_map_sum]

/-- C3: for every close series of length greater than 20, sma_5 is null at
rows 0..3 and equals the mean of the trailing 5 closes from row 4 on, and
sma_20 is null at rows 0..18 and equals the arithmetic mean of the trailing 20
closes from row 19 on. -/
theorem sma_defined_iff (closes : List ℚ) (_h20 : 20 < closes.length) (i : ℕ)
    (hi : i < closes.length) :
    (i < 4 → (calculate_technical_indicators closes).sma_5[i]? = some none) ∧
    (4 ≤ i → (calculate_technical_indicators closes).sma_5[i]? =
      some (some ((∑ j ∈ Finset.range 5, closes.getD (i - j) 0) / 5))) ∧
    (i < 19 → (calculate_technical_indicators closes).sma_20[i]? = some none) ∧
    (19 ≤ i → (calculate_technical_indicators closes).sma_20[i]? =
      some (some ((∑ j ∈ Finset.range 20, closes.getD (i - j) 0) / 20))) := by
  refine ⟨fun h4 => ?_, fun h4 => ?_, fun h19 => ?_, fun h19 => ?_⟩ <;>
    rw [calculate_technical_indicators] <;>
    rw [rollingMean_getElem _ _ i hi]
  · rw [if_pos (by omega)]
  · rw [if_neg (by omega)]; norm_num
  · rw [if_pos (by omega)]
  · rw [if_neg (by omega)]; norm_num

/-- Witness for C3 at the concrete 21-row series, row 0. -/
theorem sma_defined_iff_witness :
    (calculate_technical_indicators closes21).sma_20[0]? = some none :=
  (sma_defined_iff closes21 (by decide) 0 (by decide)).2.2.1 (by decide)

theorem ewmGo_getElem (beta : ℚ) (xs : List ℚ) : ∀ (num den : ℚ) (i : ℕ), i < xs.length →
    (ewmGo beta num den xs)[i]? =
      some ((beta ^ (i + 1) * num + ∑ j ∈ Finset.range (i + 1), beta ^ (i - j) * xs.getD j 0) /
            (beta ^ (i + 1) * den + ∑ j ∈ Finset.range (i + 1), beta ^ (i - j))) := by
  induction xs with
  | nil => intro num den i hi; simp at hi
  | cons x rest ih =>
    intro num den i hi
    cases i with
    | zero =>
      simp [ewmGo, Finset.sum_range_one, pow_one]
    | succ n =>
      have hn : n < rest.length := by simpa using hi
      have step := ih (beta * num + x) (beta * den + 1) n hn
      have hnum : beta ^ (n + 1) * (beta * num + x) +
            ∑ j ∈ Finset.range (n + 1), beta ^ (n - j) * rest.getD j 0
          = beta ^ (n + 1 + 1) * num +
            ∑ j ∈ Finset.range (n + 1 + 1), beta ^ (n + 1 - j) * (x :: rest).getD j 0 := by
        rw [Finset.sum_range_succ' (fun j => beta ^ (n + 1 - j) * (x :: rest).getD j 0)]
        have : ∀ j, beta ^ (n + 1 - (j + 1)) * (x :: rest).getD (j + 1) 0
            = beta ^ (n - j) * rest.getD j 0 := by
          intro j; rw [Nat.succ_sub_succ, List.getD_cons_succ]
        rw [Finset.sum_congr rfl (fun j _ => this j)]
        simp [List.getD_cons_zero]
        ring
      have hden : beta ^ (n + 1) * (beta * den + 1) +
            ∑ j ∈ Finset.range (n + 1), beta ^ (n - j)
          = beta ^ (n + 1 + 1) * den + ∑ j ∈ Finset.range (n + 1 + 1), beta ^ (n + 1 - j) := by
        rw [Finset.sum_range_succ' (fun j => beta ^ (n + 1 - j))]
        have : ∀ j, beta ^ (n + 1 - (j + 1)) = beta ^ (n - j) := by
          intro j; rw [Nat.succ_sub_succ]
        rw [Finset.sum_congr rfl (fun j _ => this j)]
        simp
        ring
      calc (ewmGo beta num den (x :: rest))[n + 1]?
          = (ewmGo beta (beta * num + x) (beta * den + 1) rest)[n]? := by
            simp [ewmGo]
        _ = _ := by rw [step, hnum, hden]

/-- C9: the ema_12 and ema_26 columns are defined at every row of the input
series (no warm-up null period: the column length equals the series length and
every row below it carries a value), and at each row i the value is the
exponentially weighted mean of the full history of closes up to i with
smoothing factor alpha = 2/(span+1), span 12 and 26 respectively: the weight of
the close j rows back is (1-alpha)^j, normalized by the total weight. -/
theorem ema_full_history (closes : List ℚ) (i : ℕ) (hi : i < closes.length) :
    (calculate_technical_indicators closes).ema_12.length = closes.length ∧
    (calculate_technical_indicators closes).ema_26.length = closes.length ∧
    (calculate_technical_indicators closes).ema_12[i]? =
      some ((∑ j ∈ Finset.range (i + 1), ((1 : ℚ) - 2 / (12 + 1)) ^ (i - j) * closes.getD j 0) /
            (∑ j ∈ Finset.range (i + 1), ((1 : ℚ) - 2 / (12 + 1)) ^ (i - j))) ∧
    (calculate_technical_indicators closes).ema_26[i]? =
      some ((∑ j ∈ Finset.range (i + 1), ((1 : ℚ) - 2 / (26 + 1)) ^ (i - j) * closes.getD j 0) /
            (∑ j ∈ Finset.range (i + 1), ((1 : ℚ) - 2 / (26 + 1)) ^ (i - j))) := by
  refine ⟨ewm_length _ _, ewm_length _ _, ?_, ?_⟩
  · rw [calculate_technical_indicators]
    show (ewm 12 closes)[i]? = _
    rw [ewm, ewmGo_getElem _ _ 0 0 i hi]
    norm_num
  · rw [calculate_technical_indicators]
    show (ewm 26 closes)[i]? = _
    rw [ewm, ewmGo_getElem _ _ 0 0 i hi]
    norm_num

/-- Witness for C9 at the one-row series [1]. -/
theorem ema_full_history_witness :
    (calculate_technical_indicators [1]).ema_12.length = List.length [1] :=
  (ema_full_history [1] 0 (by decide)).1

theorem gainIn_isNN (closes : List ℚ) (i : ℕ) : IsNN (gainIn closes i) := by
  by_cases h0 : i = 0
  · exact ⟨0, by simp [gainIn, deltaF, h0, keepPos], le_refl 0⟩
  · rw [gainIn, deltaF, if_neg h0, keepPos]
    by_cases hd : 0 < closes.getD i 0 - closes.getD (i - 1) 0
    · exact ⟨_, if_pos hd, le_of_lt hd⟩
    · exact ⟨0, if_neg hd, le_refl 0⟩

theorem lossIn_isNN (closes : List ℚ) (i : ℕ) : IsNN (lossIn closes i) := by
  by_cases h0 : i = 0
  · exact ⟨0, by simp [lossIn, deltaF, h0, keepNeg, pneg], le_refl 0⟩
  · rw [lossIn, deltaF, if_neg h0, keepNeg]
    by_cases hd : closes.getD i 0 - closes.getD (i - 1) 0 < 0
    · exact ⟨_, by rw [if_pos hd, pneg], by linarith⟩
    · exact ⟨0, by rw [if_neg hd, pneg]; norm_num, le_refl 0⟩

theorem toQList_isNN : ∀ l : List PVal, (∀ v ∈ l, IsNN v) →
    ∃ qs, toQList l = some qs ∧ ∀ q ∈ qs, 0 ≤ q := by
  intro l
  induction l with
  | nil => intro _; exact ⟨[], rfl, by simp⟩
  | cons v rest ih =>
    intro h
    obtain ⟨q, hq, hq0⟩ := h v (List.mem_cons_self v rest)
    obtain ⟨qs, hqs, hqs0⟩ := ih (fun w hw => h w (List.mem_cons_of_mem _ hw))
    refine ⟨q :: qs, ?_, ?_⟩
    · rw [hq]; simp [toQList, hqs]
    · intro r hr
      rcases List.mem_cons.mp hr with h1 | h2
      · exact h1 ▸ hq0
      · exact hqs0 r h2

theorem rollingF_shape (w : ℕ) (f : ℕ → PVal) (hf : ∀ j, IsNN (f j)) (i : ℕ) :
    rollingF w f i = PVal.nan ∨ IsNN (rollingF w f i) := by
  unfold rollingF
  split
  · exact Or.inl rfl
  · obtain ⟨qs, hqs, hqs0⟩ := toQList_isNN ((List.range w).map (fun j => f (i - j)))
      (by intro v hv; obtain ⟨j, _, rfl⟩ := List.mem_map.mp hv; exact hf _)
    rw [hqs]
    right
    exact ⟨qs.sum / w, rfl, div_nonneg (List.sum_nonneg hqs0) (by positivity)⟩

theorem pdiv_nan_left (y : PVal) : pdiv PVal.nan y = PVal.nan := by cases y <;> rfl

theorem pdiv_nan_right (x : PVal) : pdiv x PVal.nan = PVal.nan := by cases x <;> rfl

theorem padd_nan_right (x : PVal) : padd x PVal.nan = PVal.nan := by cases x <;> rfl

/-- C4: every row at which the rsi column carries a finite number lies in
[0, 100]; when the trailing-14 average loss is exactly zero the result is the
limiting value 100 or NaN (null), and the computation is total: no exception.
The last conjunct ties the row formula rsiF to the rsi column produced by
calculate_technical_indicators. -/
theorem rsi_bounded (closes : List ℚ) (i : ℕ) :
    (∀ q, rsiF closes i = PVal.num q → 0 ≤ q ∧ q ≤ 100) ∧
    (lossF closes i = PVal.num 0 → rsiF closes i = PVal.num 100 ∨ rsiF closes i = PVal.nan) ∧
    (∀ _ : i < closes.length,
      (calculate_technical_indicators closes).rsi[i]? = some (rsiF closes i)) := by
  have hg := rollingF_shape 14 (gainIn closes) (gainIn_isNN closes) i
  have hl := rollingF_shape 14 (lossIn closes) (lossIn_isNN closes) i
  rw [show rollingF 14 (gainIn closes) i = gainF closes i from rfl] at hg
  rw [show rollingF 14 (lossIn closes) i = lossF closes i from rfl] at hl
  refine ⟨?_, ?_, fun hi => by
    simp [calculate_technical_indicators, List.getElem?_map, List.getElem?_range, hi]⟩
  · intro q hq
    rcases hg with hg | ⟨g, hg, hg0⟩
    · simp [rsiF, hg, pdiv_nan_left, pdiv_nan_right, padd_nan_right, psub, padd, pneg] at hq
    · rcases hl with hl | ⟨l, hl, hl0⟩
      · simp [rsiF, hg, hl, pdiv_nan_left, pdiv_nan_right, padd_nan_right, psub, padd, pneg] at hq
      · by_cases hleq : l = 0
        · subst hleq
          by_cases hgeq : g = 0
          · subst hgeq
            simp [rsiF, hg, hl, pdiv, padd, psub, pneg] at hq
          · have hgpos : 0 < g := lt_of_le_of_ne hg0 (Ne.symm hgeq)
            simp [rsiF, hg, hl, pdiv, padd, psub, pneg, hgeq, hgpos] at hq
            constructor <;> simp [← hq]
        · have hlpos : 0 < l := lt_of_le_of_ne hl0 (Ne.symm hleq)
          have hgl : (0 : ℚ) ≤ g / l := div_nonneg hg0 (le_of_lt hlpos)
          have h1 : (1 : ℚ) + g / l ≠ 0 := by linarith
          simp [rsiF, hg, hl, pdiv, padd, psub, pneg, hleq, h1] at hq
          have hdpos : 0 < 100 / (1 + g / l) := div_pos (by norm_num) (by linarith)
          have hdle : 100 / (1 + g / l) ≤ 100 := div_le_self (by norm_num) (by linarith)
          constructor <;> [linarith [hq]; linarith [hq]]
  · intro hl0
    rcases hg with hg | ⟨g, hg, hg0⟩
    · right
      simp [rsiF, hg, pdiv_nan_left, pdiv_nan_right, padd_nan_right, psub, padd, pneg]
    · by_cases hgeq : g = 0
      · right
        subst hgeq
        simp [rsiF, hg, hl0, pdiv, padd, psub, pneg]
      · left
        have hgpos : 0 < g := lt_of_le_of_ne hg0 (Ne.symm hgeq)
        simp [rsiF, hg, hl0, pdiv, padd, psub, pneg, hgeq, hgpos]

/-- Witness for C4 at the strictly increasing 15-row series, row 14. -/
theorem rsi_bounded_witness :
    (calculate_technical_indicators closes15).rsi[14]? = some (rsiF closes15 14) :=
  (rsi_bounded closes15 14).2.2 (by decide)

/-- C5: for a quote row with non-null current_price and previous_close the
analyzer records change_percent_calc = (current_price - previous_close) /
previous_close * 100 together with the sentiment of that value, and the
sentiment buckets are: above 2 Strong Bullish, in (0, 2] Bullish, in (-2, 0]
Bearish, at or below -2 Strong Bearish; in particular exactly 2 gives Bullish,
exactly 0 gives Bearish and exactly -2 gives Strong Bearish. -/
theorem quote_row_spec (cp pc x : ℚ) (_hpc : pc ≠ 0) :
    analyze_quote_row (some cp) (some pc) =
      some ((cp - pc) / pc * 100, market_sentiment ((cp - pc) / pc * 100)) ∧
    (2 < x → market_sentiment x = "Strong Bullish") ∧
    (0 < x → x ≤ 2 → market_sentiment x = "Bullish") ∧
    (-2 < x → x ≤ 0 → market_sentiment x = "Bearish") ∧
    (x ≤ -2 → market_sentiment x = "Strong Bearish") ∧
    market_sentiment 2 = "Bullish" ∧
    market_sentiment 0 = "Bearish" ∧
    market_sentiment (-2) = "Strong Bearish" := by
  refine ⟨rfl, ?_, ?_, ?_, ?_, ?_, ?_, ?_⟩
  · intro h; rw [market_sentiment, if_pos (by linarith)]
  · intro h1 h2
    rw [market_sentiment, if_neg (by linarith), if_pos (by linarith)]
  · intro h1 h2
    rw [market_sentiment, if_neg (by linarith), if_neg (by linarith), if_pos (by linarith)]
  · intro h
    rw [market_sentiment, if_neg (by linarith), if_neg (by linarith), if_neg (by linarith)]
  · rw [market_sentiment, if_neg (by norm_num), if_pos (by norm_num)]
  · rw [market_sentiment, if_neg (by norm_num), if_neg (by norm_num), if_pos (by norm_num)]
  · rw [market_sentiment, if_neg (by norm_num), if_neg (by norm_num), if_neg (by norm_num)]

/-- Witness for C5 at current_price 4, previous_close 1. -/
theorem quote_row_spec_witness :
    analyze_quote_row (some (4 : ℚ)) (some 1) =
      some ((4 - 1) / 1 * 100, market_sentiment ((4 - 1) / 1 * 100)) :=
  (quote_row_spec 4 1 0 (by simp)).1


theorem ffillGo_isSome_of_some : ∀ (q : ℚ) (c : List (Option ℚ)),
    ∀ v ∈ ffillGo (some q) c, v.isSome := by
  intro q c
  induction c generalizing q with
  | nil => intro v hv; simp [ffillGo] at hv
  | cons w rest ih =>
    intro v hv
    cases w with
    | some y =>
      rw [show ffillGo (some q) (some y :: rest) = some y :: ffillGo (some y) rest from rfl] at hv
      rcases List.mem_cons.mp hv with h1 | h2
      · simp [h1]
      · exact ih y v h2
    | none =>
      rw [show ffillGo (some q) (none :: rest) = some q :: ffillGo (some q) rest from rfl] at hv
      rcases List.mem_cons.mp hv with h1 | h2
      · simp [h1]
      · exact ih q v h2

theorem getLast?_cons_ne_nil {α : Type} (x : α) (l : List α) (h : l ≠ []) :
    (x :: l).getLast? = l.getLast? := by
  cases l with
  | nil => exact absurd rfl h
  | cons a t => exact List.getLast?_cons_cons

theorem ffillGo_ne_nil (last : Option ℚ) (c : List (Option ℚ)) (h : c ≠ []) :
    ffillGo last c ≠ [] := by
  cases c with
  | nil => exact absurd rfl h
  | cons w rest => cases w <;> simp [ffillGo]

theorem ffillGo_last_isSome : ∀ (c : List (Option ℚ)) (last : Option ℚ),
    ((∃ v ∈ c, v.isSome) ∨ (c ≠ [] ∧ last.isSome)) →
    ∃ r : ℚ, (ffillGo last c).getLast? = some (some r) := by
  intro c
  induction c with
  | nil =>
    intro last h
    rcases h with ⟨v, hv, _⟩ | ⟨hne, _⟩
    · simp at hv
    · exact absurd rfl hne
  | cons w rest ih =>
    intro last h
    cases rest with
    | nil =>
      cases w with
      | some y => exact ⟨y, rfl⟩
      | none =>
        rcases h with ⟨v, hv, hvs⟩ | ⟨_, hls⟩
        · simp at hv; simp [hv] at hvs
        · obtain ⟨q, rfl⟩ := Option.isSome_iff_exists.mp hls
          exact ⟨q, rfl⟩
    | cons r rs =>
      cases w with
      | some y =>
        obtain ⟨t, ht⟩ := ih (some y) (Or.inr ⟨by simp, rfl⟩)
        refine ⟨t, ?_⟩
        rw [show ffillGo last (some y :: r :: rs) = some y :: ffillGo (some y) (r :: rs) from rfl]
        rw [getLast?_cons_ne_nil _ _ (ffillGo_ne_nil _ _ (by simp))]
        exact ht
      | none =>
        have hnext : (∃ v ∈ r :: rs, v.isSome) ∨ ((r :: rs : List (Option ℚ)) ≠ [] ∧ last.isSome) := by
          rcases h with ⟨v, hv, hvs⟩ | ⟨_, hls⟩
          · rcases List.mem_cons.mp hv with h1 | h2
            · simp [h1] at hvs
            · exact Or.inl ⟨v, h2, hvs⟩
          · exact Or.inr ⟨by simp, hls⟩
        obtain ⟨t, ht⟩ := ih last hnext
        refine ⟨t, ?_⟩
        rw [show ffillGo last (none :: r :: rs) = last :: ffillGo last (r :: rs) from rfl]
        rw [getLast?_cons_ne_nil _ _ (ffillGo_ne_nil _ _ (by simp))]
        exact ht

theorem bfill_ffill_isSome (c : List (Option ℚ)) (h : ∃ v ∈ c, v.isSome) :
    ∀ v ∈ bfill (ffill c), v.isSome := by
  obtain ⟨r, hr⟩ := ffillGo_last_isSome c none (Or.inl h)
  have hhead : (ffill c).reverse.head? = some (some r) := by
    rw [List.head?_reverse]; exact hr
  obtain ⟨t, ht⟩ : ∃ t, (ffill c).reverse = some r :: t := by
    cases hrev : (ffill c).reverse with
    | nil => rw [hrev] at hhead; simp at hhead
    | cons a t =>
      rw [hrev] at hhead
      simp at hhead
      exact ⟨t, by rw [hhead]⟩
  intro v hv
  rw [bfill, ht, List.mem_reverse] at hv
  rw [show ffillGo none (some r :: t) = some r :: ffillGo (some r) t from rfl] at hv
  rcases List.mem_cons.mp hv with h1 | h2
  · simp [h1]
  · exact ffillGo_isSome_of_some r t v h2

theorem ffillGo_none_id : ∀ (c : List (Option ℚ)), (∀ v ∈ c, v = none) → ffillGo none c = c := by
  intro c
  induction c with
  | nil => intro _; rfl
  | cons w rest ih =>
    intro h
    have hw : w = none := h w (List.mem_cons_self w rest)
    subst hw
    rw [show ffillGo none (none :: rest) = none :: ffillGo none rest from rfl,
      ih (fun v hv => h v (List.mem_cons_of_mem _ hv))]

theorem bfill_ffill_none (c : List (Option ℚ)) (h : ∀ v ∈ c, v = none) :
    bfill (ffill c) = c := by
  rw [ffill, ffillGo_none_id c h, bfill,
    ffillGo_none_id c.reverse (fun v hv => h v (List.mem_reverse.mp hv)), List.reverse_reverse]

theorem insertSorted_length (x : ℚ) : ∀ (l : List ℚ), (insertSorted x l).length = l.length + 1
  | [] => rfl
  | y :: ys => by
    rw [insertSorted]
    split
    · rfl
    · simp [insertSorted_length x ys]

theorem sortList_length : ∀ (l : List ℚ), (sortList l).length = l.length
  | [] => rfl
  | x :: xs => by rw [sortList, insertSorted_length, sortList_length xs]; rfl

theorem median_isSome (l : List ℚ) (h : l ≠ []) : (median l).isSome := by
  have hlen : (sortList l).length = l.length := sortList_length l
  have hpos : 0 < (sortList l).length := by
    rw [hlen]; exact List.length_pos.mpr h
  rw [median, if_neg (by omega)]
  by_cases hodd : (sortList l).length % 2 = 1
  · rw [if_pos hodd, List.getElem?_eq_getElem (Nat.div_lt_self hpos (by norm_num))]
    rfl
  · rw [if_neg hodd,
      List.getElem?_eq_getElem (Nat.div_lt_self hpos (by norm_num)),
      List.getElem?_eq_getElem
        (lt_of_le_of_lt (Nat.sub_le _ _) (Nat.div_lt_self hpos (by norm_num)))]
    rfl

theorem fillWithMedian_isSome (c : List (Option ℚ)) (h : ∃ v ∈ c, v.isSome) :
    ∀ v ∈ fillWithMedian c, v.isSome := by
  obtain ⟨v, hv, hvs⟩ := h
  obtain ⟨x, rfl⟩ := Option.isSome_iff_exists.mp hvs
  have hmem : x ∈ nonNulls c := List.mem_filterMap.mpr ⟨some x, hv, rfl⟩
  have hms : (median (nonNulls c)).isSome :=
    median_isSome _ (List.ne_nil_of_mem hmem)
  intro w hw
  rw [fillWithMedian, fillna] at hw
  obtain ⟨u, _, rfl⟩ := List.mem_map.mp hw
  cases u with
  | some y => rfl
  | none => exact hms

theorem fillWithMedian_none (c : List (Option ℚ)) (h : ∀ v ∈ c, v = none) :
    fillWithMedian c = c := by
  have hnn : nonNulls c = [] :=
    List.filterMap_eq_nil_iff.mpr (fun a ha => by rw [h a ha]; rfl)
  rw [fillWithMedian, hnn, show median [] = none from rfl, fillna]
  rw [show (fun v : Option ℚ => match v with | some x => some x | none => none)
      = id from funext fun v => by cases v <;> rfl]
  exact List.map_id c

/-- C6: the imputation fills price-like columns by forward then backward fill
and every other numeric column (volume included) by the column median, so a
column holding at least one value is completely filled, while an entirely null
column stays entirely null; the volume column [10, null, 30] becomes
[10, 20, 30] and the close column [null, 5, null, 7] becomes [5, 5, 5, 7]. -/
theorem impute_spec (name : String) (c : List (Option ℚ)) :
    ((∃ v ∈ c, v.isSome) → ∀ v ∈ impute_numeric_column name c, v.isSome) ∧
    ((∀ v ∈ c, v = none) → impute_numeric_column name c = c) ∧
    impute_numeric_column "volume" [some 10, none, some 30] = [some 10, some 20, some 30] ∧
    impute_numeric_column "close" [none, some 5, none, some 7] =
      [some 5, some 5, some 5, some 7] := by
  refine ⟨?_, ?_, ?_, ?_⟩
  · intro h
    rw [impute_numeric_column]
    split
    · exact bfill_ffill_isSome c h
    · split
      · exact fillWithMedian_isSome c h
      · exact fillWithMedian_isSome c h
  · intro h
    rw [impute_numeric_column]
    split
    · exact bfill_ffill_none c h
    · split
      · exact fillWithMedian_none c h
      · exact fillWithMedian_none c h
  · have hrw : impute_numeric_column "volume" [some 10, none, some 30]
        = fillWithMedian [some 10, none, some 30] := by
      rw [impute_numeric_column, if_neg (by decide), if_pos rfl]
    rw [hrw, fillWithMedian]
    have hnn : nonNulls [some 10, none, some 30] = [10, 30] := rfl
    rw [hnn]
    have hmed : median [10, 30] = some 20 := by
      rw [median]
      norm_num [sortList, insertSorted]
    rw [hmed]
    rfl
  · have hrw : impute_numeric_column "close" [none, some 5, none, some 7]
        = bfill (ffill [none, some 5, none, some 7]) := by
      rw [impute_numeric_column, if_pos (by decide)]
    rw [hrw]
    rfl

/-- Witness for C6: an all-null non-price column is left unchanged. -/
theorem impute_spec_witness :
    impute_numeric_column "extra" [none, none] = [none, none] :=
  (impute_spec "extra" [none, none]).2.1 (by decide)

theorem rhe_bounds (x : ℚ) : ⌊x⌋ ≤ rhe x ∧ rhe x ≤ ⌊x⌋ + 1 := by
  rw [rhe]
  split_ifs <;> omega

theorem rhe_mono {x y : ℚ} (h : x ≤ y) : rhe x ≤ rhe y := by
  rcases lt_or_eq_of_le (Int.floor_mono h) with hf | hf
  · calc rhe x ≤ ⌊x⌋ + 1 := (rhe_bounds x).2
      _ ≤ ⌊y⌋ := by omega
      _ ≤ rhe y := (rhe_bounds y).1
  · rw [rhe, rhe, ← hf]
    have hd : x - ⌊x⌋ ≤ y - ⌊x⌋ := by linarith
    split_ifs <;> first | omega | linarith

theorem py_round2_mono {x y : ℚ} (h : x ≤ y) : py_round2 x ≤ py_round2 y := by
  rw [py_round2, py_round2]
  have := rhe_mono (by linarith : x * 100 ≤ y * 100)
  have hc : (rhe (x * 100) : ℚ) ≤ (rhe (y * 100) : ℚ) := by exact_mod_cast this
  linarith

/-- C7 counterexample: a dataset of 10050 rows and 2 columns with exactly one
null cell still scores 100.0, because 100 * (1 - 1/20100) = 99.995... rounds up
to 100.00 at two decimals; hence the score is not 100.0 only on null-free
datasets. -/
theorem quality_score_100_with_a_null :
    data_quality_score 1 10050 2 = 100 ∧ (1 : ℕ) ≠ 0 := by
  refine ⟨?_, one_ne_zero⟩
  rw [data_quality_score, py_round2]
  have harg : ((1 : ℚ) - ((1 : ℕ) : ℚ) / (((10050 : ℕ) : ℚ) * ((2 : ℕ) : ℚ))) * 100 * 100
      = 2009900 / 201 := by norm_num
  rw [harg]
  have hfl : ⌊(2009900 / 201 : ℚ)⌋ = 9999 := by
    rw [Int.floor_eq_iff]
    norm_num
  rw [rhe, hfl]
  rw [if_neg (by norm_num), if_pos (by norm_num)]
  norm_num

/-- C7 (amended): the quality score equals round(100 * (1 - nulls /
(rows * cols)), 2); it is 100.0 whenever the dataset has zero null cells
(though not only then), and for a fixed shape it is monotonically
non-increasing as null cells are added. -/
theorem data_quality_score_spec (nulls rows cols : ℕ) (h : 0 < rows * cols) :
    data_quality_score nulls rows cols
      = py_round2 ((1 - (nulls : ℚ) / ((rows : ℚ) * (cols : ℚ))) * 100) ∧
    (nulls = 0 → data_quality_score nulls rows cols = 100) ∧
    (∀ n2, nulls ≤ n2 →
      data_quality_score n2 rows cols ≤ data_quality_score nulls rows cols) := by
  have hrc : (0 : ℚ) < (rows : ℚ) * (cols : ℚ) := by
    have := Nat.cast_pos (α := ℚ).mpr h
    push_cast at this
    linarith
  refine ⟨rfl, ?_, ?_⟩
  · intro h0
    subst h0
    have harg : ((1 : ℚ) - ((0 : ℕ) : ℚ) / ((rows : ℚ) * (cols : ℚ))) * 100 = 100 := by
      norm_num
    rw [data_quality_score, harg, py_round2]
    have hr : rhe ((100 : ℚ) * 100) = 10000 := by
      rw [rhe]
      norm_num
    rw [hr]
    norm_num
  · intro n2 hn
    apply py_round2_mono
    have hd : (nulls : ℚ) / ((rows : ℚ) * (cols : ℚ)) ≤ (n2 : ℚ) / ((rows : ℚ) * (cols : ℚ)) :=
      (div_le_div_iff_of_pos_right hrc).mpr (by exact_mod_cast hn)
    nlinarith

/-- Witness for C7 at the null-free 2 x 3 shape. -/
theorem data_quality_score_spec_witness :
    data_quality_score 0 2 3 = 100 :=
  (data_quality_score_spec 0 2 3 (by decide)).2.1 rfl

/-- C8: an exception while processing one file is caught at file granularity
and recorded as an error stats record for that file; the batch summary lists
exactly the successful files (so failed files are excluded and files after a
failure are still processed); at least one success yields the completed status,
the batch summary and the event-bus notification, and zero successes on a
non-empty batch yield the error status with no summary, the function returning
normally. -/
theorem process_all_files_spec (results : List (String × Except String ProcStats)) :
    (∀ e : String, process_stock_data (Except.error e) = (false, FileOutcome.err e)) ∧
    (successesOf results ≠ [] →
      (process_all_files results).status = "completed" ∧
      (process_all_files results).eventPublished = true ∧
      (process_all_files results).summary =
        some ⟨(successesOf results).length, (successesOf results).map Prod.fst,
              py_round2 (((successesOf results).map (fun q => q.2.quality_score)).sum /
                (successesOf results).length)⟩) ∧
    (results ≠ [] → successesOf results = [] →
      (process_all_files results).status = "error" ∧
      (process_all_files results).summary = none ∧
      (process_all_files results).eventPublished = false) := by
  refine ⟨fun e => rfl, ?_, ?_⟩
  · intro hne
    have hres : results ≠ [] := by
      intro h
      subst h
      exact hne rfl
    rw [process_all_files, if_neg (by simp [List.isEmpty_iff, hres])]
    simp only [if_neg (by simp [List.isEmpty_iff, hne] : ¬(successesOf results).isEmpty = true)]
    exact ⟨trivial, trivial, trivial⟩
  · intro hres hsucc
    rw [process_all_files, if_neg (by simp [List.isEmpty_iff, hres])]
    simp only [if_pos (by simp [List.isEmpty_iff, hsucc] : (successesOf results).isEmpty = true)]
    exact ⟨trivial, trivial, trivial⟩

/-- Witness for C8 on a batch whose first file raises and whose second
succeeds. -/
theorem process_all_files_spec_witness :
    (process_all_files batch2).status = "completed" ∧
    (process_all_files batch2).eventPublished = true ∧
    (process_all_files batch2).summary =
      some ⟨(successesOf batch2).length, (successesOf batch2).map Prod.fst,
            py_round2 (((successesOf batch2).map (fun q => q.2.quality_score)).sum /
              (successesOf batch2).length)⟩ :=
  (process_all_files_spec batch2).2.1 (by decide)

/-- C10: update_status catches the status-store error internally and returns
normally, and one orchestration cycle returns the same batch outcome whether or
not the status writes reach the store; only the list of stored values
differs. -/
theorem update_status_never_fails (redisOk : Bool) (st : String)
    (results : List (String × Except String ProcStats)) :
    (update_status redisOk st).1 = Except.ok () ∧
    process_all_files_run redisOk results =
      .ok (process_all_files results,
           if redisOk then ["processing", (process_all_files results).status] else []) := by
  cases redisOk <;> exact ⟨rfl, rfl⟩
